import Mathlib

/-!
Verification of the FastMCP group registry (`mcp.server.fastmcp.groups`):
a shallow embedding of `base.py` (the `Group` record) and `manager.py`
(the `GroupManager` registry), together with a small model of the
capability-negotiation and default list-handler behaviour that the spec
describes for the surrounding server.

Python's insertion-ordered `dict[str, Group]` is embedded as an
association list `List (String × Group)`: `dict.get` is lookup on the
first matching key, insertion of a fresh key appends at the end, and
`del` removes the (unique) entry with that key.  A Python dict can never
hold two entries with the same key; states of the embedding with
duplicate keys correspond to no Python state, so theorems that quantify
over arbitrary registry states carry a `KeysNodup` hypothesis, and we
prove that every state reachable from the empty registry satisfies it.

Everything lives in the `Mcp` namespace (the Python package name) so
that the record type can keep its source name `Group`.
-/

namespace Mcp

/-- Arbitrary JSON-like structured value, embedding the Python `Any`
values that may appear in a group's `meta` mapping (strings, numbers,
booleans, null, arrays, nested objects).  The registry never inspects
these. -/
inductive MetaValue where
  | str : String → MetaValue
  | num : Int → MetaValue
  | boolVal : Bool → MetaValue
  | nullVal : MetaValue
  | arr : List MetaValue → MetaValue
  | obj : List (String × MetaValue) → MetaValue

/-- Modelled from the spec: icon descriptors (`mcp.types.Icon`) are not
under `src/`; the spec treats them as opaque record fields, so only the
`src` string shown in the tests is represented. -/
structure Icon where
  src : String

/-- Modelled from the spec: annotation records (`mcp.types.Annotations`)
are not under `src/`; the spec calls them "optional structured
audience/behavior hints, opaque to the registry", so only the audience
list shown in the tests is represented. -/
structure Annots where
  audience : Option (List String)

/-- The `Group` record of `mcp/server/fastmcp/groups/base.py`: `name` is
the only required field, all the others default to `None`. -/
structure Group where
  name : String
  title : Option String := none
  description : Option String := none
  icons : Option (List Icon) := none
  annots : Option Annots := none
  meta : Option (List (String × MetaValue)) := none

/-- The reserved metadata key for group-membership hints
(`mcp.GROUPS_META_KEY`, value taken from `tests/server/test_groups.py`). -/
def GROUPS_META_KEY : String := "io.modelcontextprotocol/groups"

/-- Lookup in an association list: Python's `dict.get(k)`, returning the
value of the first entry whose key equals `k`. -/
def dictGet (d : List (String × Group)) (k : String) : Option Group :=
  match d with
  | [] => none
  | (k', v) :: rest => if k' = k then some v else dictGet rest k

/-- Deletion from an association list: Python's `del dict[k]`, removing
the first entry whose key equals `k` and keeping the order of the rest. -/
def dictDel (d : List (String × Group)) (k : String) : List (String × Group) :=
  match d with
  | [] => []
  | (k', v) :: rest => if k' = k then rest else (k', v) :: dictDel rest k

/-- State of `GroupManager` (`manager.py`): the insertion-ordered
registry mapping plus the duplicate-warning flag set in `__init__`. -/
structure GroupManager where
  _groups : List (String × Group)
  _warn_on_duplicate_groups : Bool

/-- `GroupManager.__init__(warn_on_duplicate_groups)`: an empty registry. -/
def mkGroupManager (warn : Bool) : GroupManager :=
  { _groups := [], _warn_on_duplicate_groups := warn }

/-- `GroupManager.add_group`: if a record with the same name exists,
return it unchanged (emitting a warning when the flag is set, returned
here as the list of log messages); otherwise store the new record at the
end of the registry and return it. -/
def GroupManager.add_group (m : GroupManager) (group : Group) :
    Group × List String × GroupManager :=
  match dictGet m._groups group.name with
  | some existing =>
      (existing,
       if m._warn_on_duplicate_groups
         then ["Group " ++ group.name ++ " is already registered"] else [],
       m)
  | none =>
      (group, [], { m with _groups := m._groups ++ [(group.name, group)] })

/-- `GroupManager.get_group`: exact-name lookup, `none` when absent. -/
def GroupManager.get_group (m : GroupManager) (name : String) : Option Group :=
  dictGet m._groups name

/-- `GroupManager.remove_group`: delete the entry when the name is
present, otherwise leave the registry unchanged. -/
def GroupManager.remove_group (m : GroupManager) (name : String) : GroupManager :=
  if (dictGet m._groups name).isSome then
    { m with _groups := dictDel m._groups name }
  else m

/-- `GroupManager.list_groups`: the stored records in registry order. -/
def GroupManager.list_groups (m : GroupManager) : List Group :=
  m._groups.map Prod.snd

/-- A call against the registry API, for reasoning about arbitrary
operation sequences. -/
inductive Op where
  | addOp : Group → Op
  | getOp : String → Op
  | removeOp : String → Op
  | listOp : Op

/-- Return value of a single registry call. -/
inductive Ret where
  | retGroup : Group → Ret
  | retOpt : Option Group → Ret
  | retNone : Ret
  | retList : List Group → Ret

/-- One registry call: its return value, the log messages it emitted,
and the successor state. -/
def step (m : GroupManager) : Op → Ret × List String × GroupManager
  | .addOp g =>
      let r := m.add_group g
      (.retGroup r.1, r.2.1, r.2.2)
  | .getOp n => (.retOpt (m.get_group n), [], m)
  | .removeOp n => (.retNone, [], m.remove_group n)
  | .listOp => (.retList m.list_groups, [], m)

/-- Run a sequence of registry calls, collecting the return values and
log messages. -/
def run (m : GroupManager) : List Op → List Ret × List String × GroupManager
  | [] => ([], [], m)
  | op :: ops =>
      let s := step m op
      let rest := run s.2.2 ops
      (s.1 :: rest.1, s.2.1 ++ rest.2.1, rest.2.2)

/-- The registry's keys are pairwise distinct — automatic for a Python
dict, an invariant of the embedding. -/
def KeysNodup (m : GroupManager) : Prop :=
  (m._groups.map Prod.fst).Nodup

/-- Every stored record sits under the key equal to its own `name`
(`add_group` stores `group` under `group.name`). -/
def KeysMatch (m : GroupManager) : Prop :=
  ∀ p ∈ m._groups, (Prod.snd p).name = Prod.fst p

/-- The two registry invariants together. -/
def Invariant (m : GroupManager) : Prop :=
  KeysNodup m ∧ KeysMatch m

theorem dictGet_eq_none_iff (d : List (String × Group)) (k : String) :
    dictGet d k = none ↔ k ∉ d.map Prod.fst := by
  induction d with
  | nil => simp [dictGet]
  | cons p rest ih =>
      obtain ⟨k', v⟩ := p
      by_cases h : k' = k
      · subst h
        simp [dictGet]
      · simp only [dictGet, if_neg h, ih, List.map_cons, List.mem_cons, not_or]
        constructor
        · exact fun hnotin => ⟨fun hh => h hh.symm, hnotin⟩
        · exact fun hh => hh.2

theorem dictGet_mem {d : List (String × Group)} {k : String} {v : Group}
    (h : dictGet d k = some v) : (k, v) ∈ d := by
  induction d with
  | nil => simp [dictGet] at h
  | cons p rest ih =>
      obtain ⟨k', v'⟩ := p
      by_cases hk : k' = k
      · subst hk
        simp [dictGet] at h
        subst h
        exact List.mem_cons_self _ _
      · simp [dictGet, hk] at h
        exact List.mem_cons_of_mem _ (ih h)

theorem mem_dictGet {d : List (String × Group)} {k : String} {v : Group}
    (hnd : (d.map Prod.fst).Nodup) (h : (k, v) ∈ d) : dictGet d k = some v := by
  induction d with
  | nil => simp at h
  | cons p rest ih =>
      obtain ⟨k', v'⟩ := p
      simp only [List.map_cons, List.nodup_cons] at hnd
      rcases List.mem_cons.mp h with h1 | h1
      · obtain ⟨hk, hv⟩ := Prod.mk.injEq .. ▸ h1
        subst hk
        simp [dictGet, hv]
      · by_cases hk : k' = k
        · subst hk
          exact absurd (List.mem_map_of_mem Prod.fst h1) hnd.1
        · simpa [dictGet, hk] using ih hnd.2 h1

theorem dictGet_append_of_none {d : List (String × Group)} {k : String}
    (e : List (String × Group)) (h : dictGet d k = none) :
    dictGet (d ++ e) k = dictGet e k := by
  induction d with
  | nil => rfl
  | cons p rest ih =>
      obtain ⟨k', v⟩ := p
      by_cases hk : k' = k
      · simp [dictGet, hk] at h
      · simp [dictGet, hk] at h ⊢
        exact ih h

theorem dictGet_dictDel_self {d : List (String × Group)} {k : String}
    (hnd : (d.map Prod.fst).Nodup) : dictGet (dictDel d k) k = none := by
  induction d with
  | nil => rfl
  | cons p rest ih =>
      obtain ⟨k', v⟩ := p
      simp only [List.map_cons, List.nodup_cons] at hnd
      by_cases hk : k' = k
      · subst hk
        simp only [dictDel, if_pos rfl]
        exact (dictGet_eq_none_iff rest k').mpr hnd.1
      · simp [dictDel, dictGet, hk, ih hnd.2]

theorem dictGet_dictDel_ne {d : List (String × Group)} {k k' : String}
    (h : k' ≠ k) : dictGet (dictDel d k) k' = dictGet d k' := by
  induction d with
  | nil => rfl
  | cons p rest ih =>
      obtain ⟨k0, v⟩ := p
      by_cases hk : k0 = k
      · subst hk
        have hne : ¬(k0 = k') := fun hh => h hh.symm
        simp [dictDel, dictGet, hne]
      · simp [dictDel, dictGet, hk, ih]

theorem dictDel_sublist (d : List (String × Group)) (k : String) :
    List.Sublist (dictDel d k) d := by
  induction d with
  | nil => simp [dictDel]
  | cons p rest ih =>
      obtain ⟨k', v⟩ := p
      by_cases hk : k' = k
      · simp only [dictDel, if_pos hk]
        exact List.sublist_cons_self (k', v) rest
      · simpa [dictDel, hk] using ih.cons₂ (k', v)

theorem dictDel_eq_filter {d : List (String × Group)} {k : String}
    (hnd : (d.map Prod.fst).Nodup) :
    dictDel d k = d.filter (fun p => p.1 != k) := by
  induction d with
  | nil => rfl
  | cons p rest ih =>
      obtain ⟨k', v⟩ := p
      simp only [List.map_cons, List.nodup_cons] at hnd
      by_cases hk : k' = k
      · subst hk
        simp only [dictDel, if_pos rfl, List.filter_cons, bne_self_eq_false,
          Bool.false_eq_true, if_neg Bool.false_ne_true]
        symm
        apply List.filter_eq_self.mpr
        intro p hp
        simp only [bne_iff_ne, ne_eq]
        intro hcontra
        exact hnd.1 (hcontra ▸ List.mem_map_of_mem Prod.fst hp)
      · simp [dictDel, hk, List.filter_cons, bne_iff_ne, ih hnd.2]

theorem map_snd_filter_key {d : List (String × Group)} {n : String}
    (hkm : ∀ p ∈ d, (Prod.snd p).name = Prod.fst p) :
    (d.filter (fun p => p.1 != n)).map Prod.snd
      = (d.map Prod.snd).filter (fun g => g.name != n) := by
  induction d with
  | nil => rfl
  | cons p rest ih =>
      obtain ⟨k, v⟩ := p
      have hv : v.name = k := hkm (k, v) (List.mem_cons_self _ _)
      have hrest : ∀ p ∈ rest, (Prod.snd p).name = Prod.fst p :=
        fun p hp => hkm p (List.mem_cons_of_mem _ hp)
      by_cases hk : k = n
      · subst hk
        simp [List.filter_cons, hv, ih hrest]
      · simp [List.filter_cons, hv, hk, bne_iff_ne, ih hrest]

theorem mk_invariant (w : Bool) : Invariant (mkGroupManager w) := by
  refine ⟨List.nodup_nil, ?_⟩
  intro p hp
  simp [mkGroupManager] at hp

theorem add_group_invariant {m : GroupManager} {g : Group}
    (h : Invariant m) : Invariant (m.add_group g).2.2 := by
  obtain ⟨hnd, hkm⟩ := h
  cases hg : dictGet m._groups g.name with
  | some e => simpa [GroupManager.add_group, hg] using And.intro hnd hkm
  | none =>
      have hstate : (m.add_group g).2.2
          = { m with _groups := m._groups ++ [(g.name, g)] } := by
        simp [GroupManager.add_group, hg]
      rw [hstate]
      refine ⟨?_, ?_⟩
      · show ((m._groups ++ [(g.name, g)]).map Prod.fst).Nodup
        rw [List.map_append]
        refine List.Nodup.append hnd (List.nodup_singleton _) ?_
        intro a ha hb
        simp only [List.map_cons, List.map_nil, List.mem_singleton] at hb
        subst hb
        exact (dictGet_eq_none_iff m._groups g.name).mp hg ha
      · show ∀ p ∈ m._groups ++ [(g.name, g)], (Prod.snd p).name = Prod.fst p
        intro p hp
        rcases List.mem_append.mp hp with h1 | h1
        · exact hkm p h1
        · simp only [List.mem_singleton] at h1
          subst h1
          rfl

theorem remove_group_invariant {m : GroupManager} {n : String}
    (h : Invariant m) : Invariant (m.remove_group n) := by
  obtain ⟨hnd, hkm⟩ := h
  unfold GroupManager.remove_group
  split
  · refine ⟨List.Nodup.sublist ((dictDel_sublist m._groups n).map Prod.fst) hnd, ?_⟩
    intro p hp
    exact hkm p ((dictDel_sublist m._groups n).subset hp)
  · exact ⟨hnd, hkm⟩

theorem step_invariant {m : GroupManager} (op : Op)
    (h : Invariant m) : Invariant (step m op).2.2 := by
  cases op with
  | addOp g => exact add_group_invariant h
  | getOp n => exact h
  | removeOp n => exact remove_group_invariant h
  | listOp => exact h

theorem run_invariant {m : GroupManager} (ops : List Op)
    (h : Invariant m) : Invariant (run m ops).2.2 := by
  induction ops generalizing m with
  | nil => exact h
  | cons op ops ih => exact ih (step_invariant op h)

theorem get_group_add_group (m : GroupManager) (g : Group) :
    ((m.add_group g).2.2).get_group g.name = some (m.add_group g).1 := by
  cases hg : dictGet m._groups g.name with
  | some e => simp [GroupManager.add_group, GroupManager.get_group, hg]
  | none =>
      simp only [GroupManager.add_group, hg, GroupManager.get_group]
      rw [dictGet_append_of_none _ hg]
      simp [dictGet]

theorem remove_group_absent {m : GroupManager} {n : String}
    (h : m.get_group n = none) : m.remove_group n = m := by
  unfold GroupManager.get_group at h
  unfold GroupManager.remove_group
  simp [h]

/-- Claim C1: if a record with name `g.name` is already registered,
`add_group g` returns the stored record and leaves the registry state
unchanged; consequently a second `add_group` with the same name (any
field values) leaves the state of the first call intact and returns the
record stored by the first call. -/
theorem add_group_duplicate_noop (m : GroupManager) (g g' : Group) :
    (∀ e, m.get_group g.name = some e →
      (m.add_group g).1 = e ∧ (m.add_group g).2.2 = m)
    ∧ (g'.name = g.name →
        ((m.add_group g).2.2.add_group g').2.2 = (m.add_group g).2.2
        ∧ ((m.add_group g).2.2.add_group g').1 = (m.add_group g).1) := by
  constructor
  · intro e he
    unfold GroupManager.get_group at he
    constructor
    · simp [GroupManager.add_group, he]
    · simp [GroupManager.add_group, he]
  · intro hname
    have h2 : ((m.add_group g).2.2).get_group g'.name
        = some (m.add_group g).1 := by
      rw [hname]
      exact get_group_add_group m g
    set m1 := (m.add_group g).2.2 with hm1
    set r1 := (m.add_group g).1 with hr1
    unfold GroupManager.get_group at h2
    constructor
    · show (m1.add_group g').2.2 = m1
      simp [GroupManager.add_group, h2]
    · show (m1.add_group g').1 = r1
      simp [GroupManager.add_group, h2]

/-- Concrete record used in witnesses. -/
def gDup : Group := { name := "dup", title := some "Duplicate" }

/-- Concrete record sharing `gDup`'s name but with different fields. -/
def gDup2 : Group := { name := "dup", title := some "Other" }

theorem add_group_duplicate_noop_witness :
    gDup2.name = gDup.name
    ∧ (((mkGroupManager true).add_group gDup).2.2.add_group gDup2).2.2
        = ((mkGroupManager true).add_group gDup).2.2 :=
  ⟨rfl, ((add_group_duplicate_noop (mkGroupManager true) gDup gDup2).2 rfl).1⟩

/-- Claim C5: `remove_group` is total (the embedding is a function, it
raises nothing): it removes the record named `n` and leaves every other
name's lookup unchanged, it is a no-op when `n` is absent, and removing
twice equals removing once. -/
theorem remove_group_total_idempotent (m : GroupManager) (n : String)
    (hnd : KeysNodup m) :
    (m.remove_group n).get_group n = none
    ∧ (∀ k, k ≠ n → (m.remove_group n).get_group k = m.get_group k)
    ∧ (m.remove_group n).remove_group n = m.remove_group n := by
  have habsent : (m.remove_group n).get_group n = none := by
    unfold GroupManager.remove_group
    split
    · exact dictGet_dictDel_self hnd
    · next hcond =>
        unfold GroupManager.get_group
        simpa using hcond
  refine ⟨habsent, ?_, remove_group_absent habsent⟩
  intro k hk
  unfold GroupManager.remove_group GroupManager.get_group
  split
  · exact dictGet_dictDel_ne hk
  · rfl

theorem remove_group_total_idempotent_witness :
    KeysNodup ((mkGroupManager true).add_group gDup).2.2
    ∧ (((mkGroupManager true).add_group gDup).2.2.remove_group "dup").get_group "dup"
        = none := by
  have hnd : KeysNodup ((mkGroupManager true).add_group gDup).2.2 :=
    (add_group_invariant (mk_invariant true)).1
  exact ⟨hnd, (remove_group_total_idempotent _ "dup" hnd).1⟩

/-- Claim C6: `get_group` is a pure total lookup: it leaves the state
unchanged, returns `some g` exactly when `g` is a stored record whose
name equals the queried name, and returns `none` exactly when no stored
record has that name. -/
theorem get_group_pure_lookup (m : GroupManager) (n : String)
    (h : Invariant m) :
    (step m (Op.getOp n)).2.2 = m
    ∧ (∀ g, m.get_group n = some g ↔ (g ∈ m.list_groups ∧ g.name = n))
    ∧ (m.get_group n = none ↔ ∀ g ∈ m.list_groups, g.name ≠ n) := by
  obtain ⟨hnd, hkm⟩ := h
  have hiff : ∀ g, m.get_group n = some g ↔ (g ∈ m.list_groups ∧ g.name = n) := by
    intro g
    constructor
    · intro hg
      have hmem := dictGet_mem hg
      have hname := hkm _ hmem
      exact ⟨List.mem_map_of_mem Prod.snd hmem, hname⟩
    · rintro ⟨hmem, hname⟩
      obtain ⟨p, hp, hpg⟩ := List.mem_map.mp hmem
      obtain ⟨k, v⟩ := p
      have hk : v.name = k := hkm (k, v) hp
      have hveq : v = g := hpg
      subst hveq
      rw [hname] at hk
      rw [← hk] at hp
      exact mem_dictGet hnd hp
  refine ⟨rfl, hiff, ?_⟩
  cases hopt : m.get_group n with
  | some g =>
      simp only [reduceCtorEq, false_iff, not_forall]
      obtain ⟨hmem, hname⟩ := (hiff g).mp hopt
      push_neg
      exact ⟨g, hmem, hname⟩
  | none =>
      simp only [true_iff]
      intro g hg hname
      have : m.get_group n = some g := (hiff g).mpr ⟨hg, hname⟩
      rw [hopt] at this
      exact Option.noConfusion this

theorem list_groups_add_absent {m : GroupManager} {g : Group}
    (hg : m.get_group g.name = none) :
    ((m.add_group g).2.2).list_groups = m.list_groups ++ [g] := by
  unfold GroupManager.get_group at hg
  simp [GroupManager.add_group, hg, GroupManager.list_groups]

theorem list_groups_remove {m : GroupManager} (h : Invariant m) (n : String) :
    (m.remove_group n).list_groups
      = m.list_groups.filter (fun g => g.name != n) := by
  obtain ⟨hnd, hkm⟩ := h
  unfold GroupManager.remove_group
  split
  · show (dictDel m._groups n).map Prod.snd = _
    rw [dictDel_eq_filter hnd]
    exact map_snd_filter_key hkm
  · next hcond =>
      symm
      apply List.filter_eq_self.mpr
      intro g hg
      have hnone : dictGet m._groups n = none := by
        simpa using hcond
      have hkeys := (dictGet_eq_none_iff _ _).mp hnone
      obtain ⟨p, hp, hpg⟩ := List.mem_map.mp hg
      simp only [bne_iff_ne, ne_eq, decide_eq_true_eq]
      intro hcontra
      apply hkeys
      have hfst : Prod.fst p = n := by rw [← hkm p hp, hpg, hcontra]
      rw [← hfst]
      exact List.mem_map_of_mem Prod.fst hp

theorem list_groups_names_nodup {m : GroupManager} (h : Invariant m) :
    (m.list_groups.map Group.name).Nodup := by
  obtain ⟨hnd, hkm⟩ := h
  have hmap : m.list_groups.map Group.name = m._groups.map Prod.fst := by
    unfold GroupManager.list_groups
    rw [List.map_map]
    exact List.map_congr_left hkm
  rw [hmap]
  exact hnd

theorem get_group_eq_some_iff {m : GroupManager} (h : Invariant m)
    (n : String) (g : Group) :
    m.get_group n = some g ↔ (g ∈ m.list_groups ∧ g.name = n) := by
  obtain ⟨hnd, hkm⟩ := h
  constructor
  · intro hg
    have hmem := dictGet_mem hg
    exact ⟨List.mem_map_of_mem Prod.snd hmem, hkm _ hmem⟩
  · rintro ⟨hmem, hname⟩
    obtain ⟨p, hp, hpg⟩ := List.mem_map.mp hmem
    obtain ⟨k, v⟩ := p
    have hk : v.name = k := hkm (k, v) hp
    have hveq : v = g := hpg
    subst hveq
    rw [hname] at hk
    rw [← hk] at hp
    exact mem_dictGet hnd hp

/-- Claim C2: after any sequence of registry calls starting from the
empty registry, `list_groups` returns exactly the records currently
present (one per registered name, no duplicate names); a fresh name is
appended at the end of the order, removal keeps the relative order of
the remaining records, and the result is stable across repeated calls
with no intervening mutation. -/
theorem list_groups_reflects_membership (w : Bool) (ops : List Op)
    (m : GroupManager) (hm : m = (run (mkGroupManager w) ops).2.2) :
    (m.list_groups.map Group.name).Nodup
    ∧ (∀ g, g ∈ m.list_groups ↔ m.get_group g.name = some g)
    ∧ (∀ g, m.get_group g.name = none →
        ((m.add_group g).2.2).list_groups = m.list_groups ++ [g])
    ∧ (∀ n, (m.remove_group n).list_groups
        = m.list_groups.filter (fun g => g.name != n))
    ∧ m.list_groups = m.list_groups := by
  have hinv : Invariant m := hm ▸ run_invariant ops (mk_invariant w)
  refine ⟨list_groups_names_nodup hinv, ?_, ?_, ?_, rfl⟩
  · intro g
    rw [get_group_eq_some_iff hinv g.name g]
    simp
  · intro g hg
    exact list_groups_add_absent hg
  · intro n
    exact list_groups_remove hinv n

/-- Concrete record used in witnesses and in the pagination claim. -/
def groupA : Group :=
  { name := "group1", title := some "Group 1", description := some "First group" }

/-- Second concrete record used in witnesses and in the pagination claim. -/
def groupB : Group :=
  { name := "group2", title := some "Group 2", description := some "Second group" }

/-- A concrete operation sequence exercising add and remove. -/
def demoOps : List Op :=
  [Op.addOp groupA, Op.addOp groupB, Op.removeOp "group1"]

theorem list_groups_reflects_membership_witness :
    ((run (mkGroupManager true) demoOps).2.2
        = (run (mkGroupManager true) demoOps).2.2)
    ∧ (((run (mkGroupManager true) demoOps).2.2.list_groups.map Group.name).Nodup) :=
  ⟨rfl, (list_groups_reflects_membership true demoOps _ rfl).1⟩

/-- Concrete parent record of the hierarchy scenario (no meta). -/
def parentGroup : Group := { name := "parent", title := some "Parent" }

/-- Concrete child record carrying the reserved hierarchy-hint key in
its meta mapping. -/
def childGroup : Group :=
  { name := "child", title := some "Child",
    meta := some [(GROUPS_META_KEY, MetaValue.arr [MetaValue.str "parent"])] }

/-- Claim C3: the registry round-trips a record's `meta` mapping
untouched — after adding a record with any meta, looking it up returns
exactly the supplied meta — and in the parent/child scenario removing
`parent` leaves the stored meta of `child` unchanged (no cascading
edit). -/
theorem meta_roundtrip_no_cascade :
    (∀ (m : GroupManager) (g : Group), m.get_group g.name = none →
      (((m.add_group g).2.2).get_group g.name).map Group.meta = some g.meta)
    ∧ (((((mkGroupManager true).add_group parentGroup).2.2.add_group
            childGroup).2.2.remove_group "parent").get_group "child"
        = some childGroup)
    ∧ childGroup.meta
        = some [(GROUPS_META_KEY, MetaValue.arr [MetaValue.str "parent"])] := by
  refine ⟨?_, rfl, rfl⟩
  intro m g hg
  have h1 := get_group_add_group m g
  have h2 : (m.add_group g).1 = g := by
    unfold GroupManager.get_group at hg
    simp [GroupManager.add_group, hg]
  rw [h1, h2]
  rfl

theorem meta_roundtrip_no_cascade_witness :
    (mkGroupManager true).get_group childGroup.name = none
    ∧ ((((mkGroupManager true).add_group childGroup).2.2).get_group
          childGroup.name).map Group.meta = some childGroup.meta :=
  ⟨rfl, meta_roundtrip_no_cascade.1 (mkGroupManager true) childGroup rfl⟩

theorem get_group_pure_lookup_witness :
    Invariant ((mkGroupManager true).add_group gDup).2.2
    ∧ (((mkGroupManager true).add_group gDup).2.2.get_group "dup" = some gDup
        ↔ (gDup ∈ ((mkGroupManager true).add_group gDup).2.2.list_groups
            ∧ gDup.name = "dup")) :=
  ⟨add_group_invariant (mk_invariant true),
   (get_group_pure_lookup _ "dup" (add_group_invariant (mk_invariant true))).2.1 gDup⟩

theorem step_groups_congr (m1 m2 : GroupManager) (op : Op)
    (h : m1._groups = m2._groups) :
    (step m1 op).1 = (step m2 op).1
    ∧ ((step m1 op).2.2)._groups = ((step m2 op).2.2)._groups := by
  cases op with
  | addOp g =>
      constructor
      · show Ret.retGroup (m1.add_group g).1 = Ret.retGroup (m2.add_group g).1
        unfold GroupManager.add_group
        rw [h]
        split <;> rfl
      · show ((m1.add_group g).2.2)._groups = ((m2.add_group g).2.2)._groups
        unfold GroupManager.add_group
        rw [h]
        split <;> simp [h]
  | getOp n =>
      exact ⟨by simp [step, GroupManager.get_group, h], h⟩
  | removeOp n =>
      refine ⟨rfl, ?_⟩
      show (m1.remove_group n)._groups = (m2.remove_group n)._groups
      unfold GroupManager.remove_group
      rw [h]
      split
      · rfl
      · exact h
  | listOp =>
      exact ⟨by simp [step, GroupManager.list_groups, h], h⟩

theorem run_groups_congr (ops : List Op) (m1 m2 : GroupManager)
    (h : m1._groups = m2._groups) :
    (run m1 ops).1 = (run m2 ops).1
    ∧ ((run m1 ops).2.2)._groups = ((run m2 ops).2.2)._groups := by
  induction ops generalizing m1 m2 with
  | nil => exact ⟨rfl, h⟩
  | cons op ops ih =>
      obtain ⟨hret, hst⟩ := step_groups_congr m1 m2 op h
      obtain ⟨hrets, hfin⟩ := ih _ _ hst
      constructor
      · show (step m1 op).1 :: (run (step m1 op).2.2 ops).1
            = (step m2 op).1 :: (run (step m2 op).2.2 ops).1
        rw [hret, hrets]
      · exact hfin

/-- Claim C10: the `warn_on_duplicate_groups` flag only affects logging:
two registries constructed with the flag set to true and false produce,
on every identical sequence of add/get/remove/list calls, identical
return values and identical final registry contents. -/
theorem warn_flag_observationally_inert (ops : List Op) :
    (run (mkGroupManager true) ops).1 = (run (mkGroupManager false) ops).1
    ∧ ((run (mkGroupManager true) ops).2.2)._groups
        = ((run (mkGroupManager false) ops).2.2)._groups :=
  run_groups_congr ops _ _ rfl

/-- Python object store for list objects: the registry state plus the
heap of list objects allocated so far (an address is an index into the
heap).  `list(self._groups.values())` in `list_groups` allocates a fresh
list object holding a copy of the registry's current records, so
registry mutation and mutation of a returned list object act on
disjoint parts of this state. -/
structure PyState where
  manager : GroupManager
  heap : List (List Group)

/-- Read the list object stored at address `a`. -/
def heapRead (s : PyState) (a : Nat) : Option (List Group) :=
  s.heap[a]?

/-- A call to `list_groups`: allocate a fresh list object holding the
registry's current records (`list(self._groups.values())`) and return
its address. -/
def list_groups_call (s : PyState) : Nat × PyState :=
  (s.heap.length, { s with heap := s.heap ++ [s.manager.list_groups] })

/-- A call to `add_group`, acting on the registry only. -/
def managerAdd (s : PyState) (g : Group) : PyState :=
  { s with manager := (s.manager.add_group g).2.2 }

/-- A call to `remove_group`, acting on the registry only. -/
def managerRemove (s : PyState) (n : String) : PyState :=
  { s with manager := s.manager.remove_group n }

/-- Caller-side mutation of the list object at address `a` (appending,
deleting, or any overwrite of its contents). -/
def heapWrite (s : PyState) (a : Nat) (xs : List Group) : PyState :=
  { s with heap := s.heap.set a xs }

/-- Claim C8: `list_groups` returns a snapshot: the allocated list holds
the registry's records at call time; a later `add_group` or
`remove_group` leaves the previously returned list object unchanged; and
mutating the returned list object leaves the registry unchanged. -/
theorem list_groups_snapshot (s : PyState) (g : Group) (n : String)
    (xs : List Group) :
    heapRead (list_groups_call s).2 (list_groups_call s).1
        = some s.manager.list_groups
    ∧ heapRead (managerAdd (list_groups_call s).2 g) (list_groups_call s).1
        = heapRead (list_groups_call s).2 (list_groups_call s).1
    ∧ heapRead (managerRemove (list_groups_call s).2 n) (list_groups_call s).1
        = heapRead (list_groups_call s).2 (list_groups_call s).1
    ∧ (heapWrite (list_groups_call s).2 (list_groups_call s).1 xs).manager
        = (list_groups_call s).2.manager := by
  refine ⟨?_, rfl, rfl, rfl⟩
  show (s.heap ++ [s.manager.list_groups])[s.heap.length]? = _
  rw [List.getElem?_concat_length]

/-- Modelled from the spec: `NotificationOptions` of
`mcp.server.lowlevel.server` is not under `src/`; the tests exercise
only its `groups_changed` flag, so only that flag is represented. -/
structure NotificationOptions where
  groups_changed : Bool

/-- The advertised groups capability: present as a record carrying a
`list_changed` flag (absence is represented by `Option.none` in
`get_capabilities_groups`). -/
structure GroupsCapability where
  list_changed : Bool

/-- Modelled from the spec: `Server.get_capabilities` of the low-level
server is not under `src/`.  Per the spec, the groups capability is
present in the advertised capability set if and only if a list-groups
handler is registered, and, when present, its `list_changed` flag equals
the configured `groups_changed` notification option. -/
def get_capabilities_groups (handlerRegistered : Bool)
    (opts : NotificationOptions) : Option GroupsCapability :=
  if handlerRegistered then some { list_changed := opts.groups_changed }
  else none

/-- Claim C4: the groups capability is present iff a list-groups handler
is registered — entirely absent with no handler — and when present its
`list_changed` flag equals the configured `groups_changed` option. -/
theorem groups_capability_iff_handler (b : Bool)
    (opts : NotificationOptions) :
    ((∃ c, get_capabilities_groups b opts = some c) ↔ b = true)
    ∧ get_capabilities_groups false opts = none
    ∧ (∀ c, get_capabilities_groups b opts = some c →
        c.list_changed = opts.groups_changed) := by
  refine ⟨?_, rfl, ?_⟩
  · cases b <;> simp [get_capabilities_groups]
  · intro c hc
    cases b with
    | false => simp [get_capabilities_groups] at hc
    | true =>
        simp [get_capabilities_groups] at hc
        subst hc
        rfl

theorem groups_capability_iff_handler_witness :
    get_capabilities_groups true { groups_changed := true }
        = some { list_changed := true }
    ∧ (GroupsCapability.mk true).list_changed
        = NotificationOptions.groups_changed { groups_changed := true } :=
  ⟨rfl,
   (groups_capability_iff_handler true { groups_changed := true }).2.2
     { list_changed := true } rfl⟩

/-- Result envelope of a `groups/list` request (`ListGroupsResult`): the
ordered records plus an optional pagination cursor. -/
structure ListGroupsResult where
  groups : List Group
  nextCursor : Option String

/-- Modelled from the spec: the default list handler installed by the
FastMCP server is not under `src/`; per the spec it ignores the cursor
and returns the full contents of the registry's `list_groups()` as a
single unpaginated page with no `nextCursor`. -/
def default_list_groups (m : GroupManager) (_cursor : Option String) :
    ListGroupsResult :=
  { groups := m.list_groups, nextCursor := none }

/-- Claim C7: with no custom paginating handler, a cursorless list
request against a registry holding records A and B returns both records
in registry order with no `nextCursor`; against an empty registry it
returns the empty sequence with no `nextCursor`. -/
theorem default_list_unpaginated :
    (default_list_groups
        (((mkGroupManager true).add_group groupA).2.2.add_group groupB).2.2
        none).groups
      = [groupA, groupB]
    ∧ (default_list_groups
        (((mkGroupManager true).add_group groupA).2.2.add_group groupB).2.2
        none).nextCursor = none
    ∧ (default_list_groups (mkGroupManager true) none).groups = []
    ∧ (default_list_groups (mkGroupManager true) none).nextCursor = none :=
  ⟨rfl, rfl, rfl, rfl⟩

/-- Record whose `name` is the empty string. -/
def emptyNameGroup : Group := { name := "" }

/-- Claim C9, counterexample: nothing rejects an empty name — adding a
record whose name is the empty string to the empty registry stores it,
and it is retrievable afterwards, contradicting "rejected rather than
stored". -/
theorem empty_name_stored_counterexample :
    ((mkGroupManager true).add_group emptyNameGroup).2.2.get_group ""
      = some emptyNameGroup := rfl

/-- Claim C9 (amended): constructing a `Group` requires a `name` field,
but the registry performs no non-emptiness validation: a record whose
name is the empty string is accepted and stored like any other record. -/
theorem empty_name_accepted (m : GroupManager)
    (h : m.get_group "" = none) :
    ((m.add_group emptyNameGroup).2.2).get_group ""
      = some emptyNameGroup := by
  have h1 := get_group_add_group m emptyNameGroup
  have hname : emptyNameGroup.name = "" := rfl
  rw [hname] at h1
  rw [h1]
  have h2 : (m.add_group emptyNameGroup).1 = emptyNameGroup := by
    unfold GroupManager.get_group at h
    unfold GroupManager.add_group
    rw [hname, h]
  rw [h2]

theorem empty_name_accepted_witness :
    (mkGroupManager true).get_group "" = none
    ∧ (((mkGroupManager true).add_group emptyNameGroup).2.2).get_group ""
        = some emptyNameGroup :=
  ⟨rfl, empty_name_accepted (mkGroupManager true) rfl⟩

end Mcp
